import Mathlib

/-!
Verification model of `wechat_to_mkdocs.py`: the incremental-synchronization
core (manifest store, identity assigner, reconciliation engine, navigation
index).  Strings are modelled over the ASCII range: `Char.isDigit`,
`Char.isAlphanum` and `Char.isWhitespace` stand for Python's `str.isdigit`,
`str.isalnum` and `str.strip` character classes restricted to ASCII; Unicode
character classes and the `_` digit separator accepted by Python's `int` are
outside the model.  `hashlib.md5` is an external library call and is taken as
an abstract parameter `md5 : String → String` (its hex digest).
-/

/-! Python string primitives, modelled at the `List Char` level. -/

/-- Python `s.strip()`: drop leading and trailing whitespace. -/
def stripChars (l : List Char) : List Char :=
  ((l.dropWhile Char.isWhitespace).reverse.dropWhile Char.isWhitespace).reverse

/-- Python `s.strip()` on `String`. -/
def pyStrip (s : String) : String :=
  String.mk (stripChars s.data)

/-- Value of a decimal digit string (assumes every char is a digit). -/
def digitsVal (l : List Char) : Nat :=
  l.foldl (fun a c => 10 * a + (c.toNat - 48)) 0

/-- Python `int(s)` on a nonnegative decimal literal: strip whitespace, then
require a nonempty all-digit string. -/
def pyIntNat (l : List Char) : Option Nat :=
  let t := stripChars l
  if t.isEmpty then none
  else if t.all Char.isDigit then some (digitsVal t) else none

/-- Decimal digits of `n`, most significant first; fuel-based recursion
(`fuel ≥ n` suffices).  Returns `[]` for `n = 0`. -/
def decAux : Nat → Nat → List Char
  | 0, _ => []
  | _ + 1, 0 => []
  | fuel + 1, n + 1 => decAux fuel ((n + 1) / 10) ++ [Char.ofNat (48 + (n + 1) % 10)]

/-- Decimal representation of `n` (Python `str(n)` for `n : Nat`). -/
def decChars (n : Nat) : List Char :=
  if n = 0 then ['0'] else decAux n n

/-- Python `f"{n:03d}"`: zero-pad the decimal representation to width ≥ 3. -/
def padChars (n : Nat) : List Char :=
  List.replicate (3 - (decChars n).length) '0' ++ decChars n

/-- The `.md` extension as characters. -/
def mdExt : List Char := ['.', 'm', 'd']

/-- The ten decimal digit characters. -/
def decDigits : List Char := ['0', '1', '2', '3', '4', '5', '6', '7', '8', '9']

/-- Python `pat in s` (substring test). -/
def subOccurs : List Char → List Char → Bool
  | [], pat => pat.isEmpty
  | l@(_ :: t), pat => pat.isPrefixOf l || subOccurs t pat

/-- Python `s.split('\n')`. -/
def splitNl : List Char → List (List Char)
  | [] => [[]]
  | '\n' :: cs => [] :: splitNl cs
  | c :: cs =>
    match splitNl cs with
    | [] => [[c]]
    | h :: t => (c :: h) :: t

/-- Python `s.split('\n')` on `String`. -/
def pySplitLines (s : String) : List String :=
  (splitNl s.data).map String.mk

/-- Python `s.replace(pat, rep)`: replace every non-overlapping occurrence,
left to right (fuel-based; `fuel ≥ l.length` suffices). -/
def replaceAllFuel (pat rep : List Char) : Nat → List Char → List Char
  | 0, l => l
  | _ + 1, [] => []
  | fuel + 1, c :: cs =>
    if !pat.isEmpty && pat.isPrefixOf (c :: cs) then
      rep ++ replaceAllFuel pat rep fuel ((c :: cs).drop pat.length)
    else
      c :: replaceAllFuel pat rep fuel cs

/-- Python `s.replace(pat, rep)` on `String`. -/
def pyReplace (s pat rep : String) : String :=
  String.mk (replaceAllFuel pat.data rep.data s.data.length s.data)

/-- First `n` characters of a string (Python `s[:n]`). -/
def firstN (s : String) (n : Nat) : String :=
  String.mk (s.data.take n)

/-! Data model: the filesystem/manifest/navigation state the script
reconciles.  `files` are the entries of `OUTPUT_DIR` as (name, content) pairs
in `os.listdir` order; `imageDirs` the directory names under
`markdown/images`; `manifest` the `downloaded.json` mapping URL → recorded
filename (`none` models a legacy record with no filename); `nav` the
`mkdocs.yml` `nav:` list, each entry a single-key title→path mapping or an
opaque passthrough value. -/

inductive NavItem where
  | entry (title path : String)
  | other (raw : String)
  deriving DecidableEq

structure FS where
  files : List (String × String)
  imageDirs : List String
  manifest : List (String × Option String)
  nav : List NavItem
  deriving DecidableEq

/-- Python `url in articles` for the manifest dict. -/
def containsKey (m : List (String × Option String)) (url : String) : Bool :=
  m.any (fun p => p.1 == url)

/-- Python `articles[url].get("filename")`, as an optional lookup. -/
def mLookup (m : List (String × Option String)) (url : String) : Option (Option String) :=
  (m.find? (fun p => p.1 == url)).map Prod.snd

/-- Python `del articles[url]` (key removal). -/
def mErase (m : List (String × Option String)) (url : String) : List (String × Option String) :=
  m.filter (fun p => p.1 != url)

/-- `save_downloaded_url`: set/overwrite the record for `url` with `filename`
(dict insertion keeps the position of an existing key, else appends). -/
def mUpsert (m : List (String × Option String)) (url : String) (fn : String) :
    List (String × Option String) :=
  if containsKey m url then
    m.map (fun p => if p.1 == url then (p.1, some fn) else p)
  else
    m ++ [(url, some fn)]

/-- Possible on-disk states of `downloaded.json`: absent, unreadable or
non-JSON (any exception during read/parse), the legacy shape
`{"urls": [...]}`, or the current shape `{"articles": {...}}`. -/
inductive ManifestFile where
  | missing
  | malformed
  | legacy (urls : List String)
  | current (articles : List (String × Option String))

/-- `load_downloaded_urls`: missing file → empty; exception → warn and empty;
legacy list of URLs → one record per URL with no filename; else the stored
articles mapping. -/
def load_downloaded_urls : ManifestFile → List (String × Option String)
  | .missing => []
  | .malformed => []
  | .legacy urls =>
    urls.foldl (fun acc u => if containsKey acc u then acc else acc ++ [(u, none)]) []
  | .current articles => articles

/-! Identity assigner. -/

/-- Characters kept by the title sanitizer: `c.isalnum() or c in "._- "`. -/
def allowedChar (c : Char) : Bool :=
  c.isAlphanum || c = '.' || c = '_' || c = '-' || c = ' '

/-- The `safe_title` computation in `process_images`: keep allowed chars,
strip, replace spaces with underscores, fall back to `"article"` if empty. -/
def safeTitle (t : String) : String :=
  let s1 := t.data.filter allowedChar
  let s2 := stripChars s1
  let s3 := s2.map (fun c => if c = ' ' then '_' else c)
  if s3.isEmpty then "article" else String.mk s3

/-- `hashlib.md5(url.encode()).hexdigest()[:8]` with the digest abstract. -/
def urlHash (md5 : String → String) (u : String) : String :=
  firstN (md5 u) 8

/-- The asset-group directory name `f"{safe_title}_{url_hash}"` built in
`process_images`. -/
def derive_asset_group_id (md5 : String → String) (title url : String) : String :=
  safeTitle title ++ "_" ++ urlHash md5 url

/-- The per-filename test-and-parse inside `get_next_article_number`:
`f[0].isdigit() and f.endswith('.md')`, then `int(f.split('.')[0])`. -/
def qualParse (l : List Char) : Option Nat :=
  match l with
  | [] => none
  | c :: _ =>
    if c.isDigit && List.isSuffixOf mdExt l then
      pyIntNat (l.takeWhile (fun ch => ch ≠ '.'))
    else none

/-- `get_next_article_number`: one greater than the max integer parsed from
qualifying filenames, 1 when none exist (or the directory is missing,
modelled by the empty listing). -/
def get_next_article_number (files : List String) : Nat :=
  (files.filterMap (fun f => qualParse f.data)).foldl max 0 + 1

/-- Modelled from the spec: the sequence-number scan as §4.2 words it —
"filenames whose name (sans extension) parses as an integer", with no `.md`
or leading-digit requirement.  For comparison against
`get_next_article_number`. -/
def specNextNumber (files : List String) : Nat :=
  (files.filterMap (fun f => pyIntNat (f.data.takeWhile (fun ch => ch ≠ '.')))).foldl max 0 + 1

/-- Filename assigned by `save_markdown`: `f"{n:03d}.md"`. -/
def mdFileName (n : Nat) : String :=
  String.mk (padChars n ++ mdExt)

/-! Markdown whitespace normalization in `save_markdown`. -/

/-- Python truthiness of `line.strip()`, negated: the line is blank. -/
def blankLine (l : String) : Bool :=
  (stripChars l.data).isEmpty

/-- The cleaning loop of `save_markdown`: keep non-blank lines, emit a single
`""` for each run of blank lines (`prev_empty` threading). -/
def collapseBlanks : List String → Bool → List String
  | [], _ => []
  | l :: ls, prevEmpty =>
    if !blankLine l then l :: collapseBlanks ls false
    else if prevEmpty then collapseBlanks ls true
    else "" :: collapseBlanks ls true

/-- The trailing `while cleaned_lines and not cleaned_lines[-1].strip(): pop`
loop: remove the maximal blank suffix. -/
def removeTrailingBlank : List String → List String
  | [] => []
  | l :: ls =>
    match removeTrailingBlank ls with
    | [] => if blankLine l then [] else [l]
    | r => l :: r

/-- Whole line-cleaning pass of `save_markdown`. -/
def cleanLines (ls : List String) : List String :=
  removeTrailingBlank (collapseBlanks ls false)

/-- Body text produced by `save_markdown` before the heading is prepended. -/
def cleanMarkdown (mdText : String) : String :=
  String.intercalate "\n" (cleanLines (pySplitLines mdText))

/-- Full file content written by `save_markdown`:
`f"# {title}\n\n" + cleaned`. -/
def saveContent (title mdText : String) : String :=
  "# " ++ title ++ "\n\n" ++ cleanMarkdown mdText

/-! Navigation index (`update_mkdocs_nav` and the pruning block in `main`). -/

/-- Paths carried by the mapping entries of the nav list. -/
def navPaths (nav : List NavItem) : List String :=
  nav.filterMap (fun item =>
    match item with
    | .entry _ p => some p
    | .other _ => none)

/-- `update_mkdocs_nav`: keep every existing item, then append one new entry
per (filename, title) pair whose filename is not among the pre-existing
paths (the `existing_files` set is built once, before any append). -/
def update_mkdocs_nav (nav : List NavItem) (added : List (String × String)) : List NavItem :=
  nav ++ (added.filter (fun ft => !(navPaths nav).contains ft.1)).map
    (fun ft => NavItem.entry ft.2 ft.1)

/-! Deletion (`delete_article` and the deletion/pruning phase of `main`). -/

/-- The filename-resolution fallback in `delete_article`: scan `OUTPUT_DIR`
for the first `.md` file whose raw content contains the URL string. -/
def findByContent (files : List (String × String)) (url : String) : Option String :=
  (files.find? (fun fc => List.isSuffixOf mdExt fc.1.data && subOccurs fc.2.data url.data)).map
    Prod.fst

/-- `os.remove` of a named entry. -/
def removeFile (files : List (String × String)) (name : String) : List (String × String) :=
  files.filter (fun fc => fc.1 != name)

/-- Filename resolution in `delete_article`: use the recorded filename when
truthy, otherwise fall back to the content scan. -/
def resolveFilename (s : FS) (url : String) (recFn : Option String) : Option String :=
  match recFn with
  | some f => if f.isEmpty then findByContent s.files url else some f
  | none => findByContent s.files url

/-- Image directories matching `img_dir.endswith(f"_{url_hash}")`. -/
def matchingImageDirs (md5 : String → String) (dirs : List String) (url : String) : List String :=
  dirs.filter (fun d => List.isSuffixOf ('_' :: (urlHash md5 url).data) d.data)

/-- Whether `delete_article` will actually remove a Markdown file: the
resolved filename exists among the directory entries. -/
def fileWouldDelete (s : FS) (url : String) (recFn : Option String) : Bool :=
  match resolveFilename s url recFn with
  | some f => s.files.any (fun fc => fc.1 == f)
  | none => false

/-- `delete_article(url)`: no record → warn and return False with no state
change; else remove the resolved file when present, remove every image
directory with the URL-hash suffix, always drop the manifest record, and
return whether a file or an image directory was actually deleted. -/
def delete_article (md5 : String → String) (s : FS) (url : String) : FS × Bool :=
  match mLookup s.manifest url with
  | none => (s, false)
  | some recFn =>
    let fn? := resolveFilename s url recFn
    let fileDeleted :=
      match fn? with
      | some f => s.files.any (fun fc => fc.1 == f)
      | none => false
    let files' :=
      match fn? with
      | some f => if s.files.any (fun fc => fc.1 == f) then removeFile s.files f else s.files
      | none => s.files
    let imageDirs' :=
      s.imageDirs.filter (fun d => !List.isSuffixOf ('_' :: (urlHash md5 url).data) d.data)
    let imageDeleted := !(matchingImageDirs md5 s.imageDirs url).isEmpty
    ({ files := files', imageDirs := imageDirs',
       manifest := mErase s.manifest url, nav := s.nav },
     fileDeleted || imageDeleted)

/-- One iteration of the deletion loop in `main`: on success the URL is added
to `deleted_files` and `has_changes` is set. -/
def delStep (md5 : String → String) (acc : FS × List String × Bool) (url : String) :
    FS × List String × Bool :=
  let r := delete_article md5 acc.1 url
  if r.2 then (r.1, acc.2.1 ++ [url], true) else (r.1, acc.2.1, acc.2.2)

/-- The deletion loop of `main` over the delete list, starting with no
deletions recorded. -/
def deletionPhase (md5 : String → String) (s : FS) (urls : List String) :
    FS × List String × Bool :=
  urls.foldl (delStep md5) (s, [], false)

/-- The per-entry check of the nav-pruning block in `main`: it reloads the
manifest (already updated by `delete_article`) and asks whether some deleted
URL still has a record whose filename equals this entry's path. -/
def navEntryDeleted (m : List (String × Option String)) (deleted : List String) (p : String) :
    Bool :=
  deleted.any (fun du =>
    match mLookup m du with
    | some (some f) => f == p
    | _ => false)

/-- The nav-pruning block of `main`: only runs when something was deleted,
keeps entry 0 unconditionally, filters the rest by `navEntryDeleted`.  An
empty nav list raises `IndexError` at `config["nav"][0]`, which the
surrounding `except` swallows, leaving the file unchanged. -/
def navPrune (s : FS) (deleted : List String) : FS :=
  if deleted.isEmpty then s
  else
    match s.nav with
    | [] => s
    | home :: rest =>
      { s with nav := home :: rest.filter (fun item =>
          match item with
          | .entry _ p => !navEntryDeleted s.manifest deleted p
          | .other _ => true) }

/-- Step 1 of `main` in full: deletion loop, then nav pruning. -/
def runDeletePhase (md5 : String → String) (s : FS) (urls : List String) :
    FS × List String × Bool :=
  let r := deletionPhase md5 s urls
  (navPrune r.1 r.2.1, r.2.1, r.2.2)

/-! Desired-source file parsing. -/

/-- `load_delete_urls`: lines whose stripped form starts with `#DELETE:`,
with the marker removed and the remainder stripped; empty results dropped. -/
def load_delete_urls (lines : List String) : List String :=
  lines.filterMap (fun line =>
    let t := pyStrip line
    if List.isPrefixOf "#DELETE:".data t.data then
      let u := pyStrip (pyReplace t "#DELETE:" "")
      if u.isEmpty then none else some u
    else none)

/-- `load_articles`: stripped non-empty lines not starting with `#`. -/
def load_articles (lines : List String) : List String :=
  lines.filterMap (fun line =>
    let t := pyStrip line
    if !t.isEmpty && !List.isPrefixOf ['#'] t.data then some t else none)

/-! Ingestion (step 2 of `main`).  The external fetch/convert pipeline for one
URL (Selenium fetch, image downloads, HTML→Markdown) is an oracle
`fetch : String → Option (String × String)` returning (title, markdown text);
`none` models any exception inside the per-URL `try` block. -/

/-- `urls_to_process = [url for url in urls if url not in downloaded_urls]`. -/
def toProcess (desired : List String) (m : List (String × Option String)) : List String :=
  desired.filter (fun u => !containsKey m u)

/-- One iteration of the ingestion loop: on fetch success, number and write
the Markdown file, upsert the manifest, and record the (filename, title)
pair; on failure, log and continue. -/
def ingestStep (fetch : String → Option (String × String))
    (acc : FS × List (String × String)) (url : String) : FS × List (String × String) :=
  match fetch url with
  | none => acc
  | some tc =>
    let s := acc.1
    let n := get_next_article_number (s.files.map Prod.fst)
    let filename := mdFileName n
    ({ s with files := s.files ++ [(filename, saveContent tc.1 tc.2)],
              manifest := mUpsert s.manifest url filename },
     acc.2 ++ [(filename, tc.1)])

/-- The ingestion loop of `main` over the computed to-process list. -/
def ingestionPhase (fetch : String → Option (String × String)) (s : FS)
    (desired : List String) : FS × List (String × String) :=
  (toProcess desired s.manifest).foldl (ingestStep fetch) (s, [])

/-- Filenames produced by `n` successive ingestions, each file written before
the next number is assigned (as `save_markdown` does). -/
def seqNames (files : List String) : Nat → List String
  | 0 => []
  | n + 1 =>
    let num := get_next_article_number files
    mdFileName num :: seqNames (files ++ [mdFileName num]) n

/-- A concrete stand-in for an md5 hex digest, used for closed evaluations. -/
def md5stub : String → String := fun _ => "0123456789abcdef0123456789abcdef"

/-- No two consecutive lines are both blank. -/
def noAdjBlank : List String → Bool
  | [] => true
  | [_] => true
  | a :: b :: t => !(blankLine a && blankLine b) && noAdjBlank (b :: t)

/-- A fully-ingested state for one article at URL `https://x`: Markdown file,
image-asset directory (suffix `_01234567` = first 8 chars of the stub
digest), manifest record, and a nav with the home entry plus the article. -/
def demoState : FS :=
  { files := [("001.md", "body mentioning https://x")],
    imageDirs := ["T_01234567"],
    manifest := [("https://x", some "001.md")],
    nav := [NavItem.other "Home", NavItem.entry "T" "001.md"] }

/-! Helper lemmas: decimal representation and `get_next_article_number`. -/

theorem decAux_zero (fuel : Nat) : decAux fuel 0 = [] := by
  cases fuel <;> rfl

theorem mem_decDigits_isDigit {c : Char} (h : c ∈ decDigits) :
    c.isDigit = true := by
  fin_cases h <;> decide

theorem mem_decDigits_not_ws {c : Char} (h : c ∈ decDigits) :
    c.isWhitespace = false := by
  fin_cases h <;> decide

theorem mem_decDigits_ne_dot {c : Char} (h : c ∈ decDigits) : c ≠ '.' := by
  fin_cases h <;> decide

theorem ofNat_digit_mem {d : Nat} (h : d < 10) : Char.ofNat (48 + d) ∈ decDigits := by
  interval_cases d <;> decide

theorem toNat_ofNat_digit {d : Nat} (h : d < 10) : (Char.ofNat (48 + d)).toNat - 48 = d := by
  interval_cases d <;> decide

theorem digitsVal_append (a : List Char) (c : Char) :
    digitsVal (a ++ [c]) = 10 * digitsVal a + (c.toNat - 48) := by
  simp [digitsVal, List.foldl_append]

theorem decAux_spec :
    ∀ fuel n, 0 < n → n ≤ fuel →
      decAux fuel n ≠ [] ∧ (∀ c ∈ decAux fuel n, c ∈ decDigits) ∧
        digitsVal (decAux fuel n) = n := by
  intro fuel
  induction fuel with
  | zero => intro n h1 h2; omega
  | succ fuel ih =>
    intro n h1 h2
    obtain ⟨m, rfl⟩ : ∃ m, n = m + 1 := ⟨n - 1, by omega⟩
    show decAux (fuel + 1) (m + 1) ≠ [] ∧ _ ∧ _
    have hmod : (m + 1) % 10 < 10 := Nat.mod_lt _ (by omega)
    by_cases hq : (m + 1) / 10 = 0
    · rw [decAux, hq, decAux_zero, List.nil_append]
      refine ⟨by simp, ?_, ?_⟩
      · intro c hc
        rw [List.mem_singleton] at hc
        subst hc
        exact ofNat_digit_mem hmod
      · have hlt : m + 1 < 10 := by
          rcases Nat.lt_or_ge (m + 1) 10 with h | h
          · exact h
          · exact absurd (Nat.one_le_div_iff (by omega) |>.mpr h) (by omega)
        have hmm : (m + 1) % 10 = m + 1 := Nat.mod_eq_of_lt hlt
        have h1' : digitsVal [Char.ofNat (48 + (m + 1) % 10)]
            = (Char.ofNat (48 + (m + 1) % 10)).toNat - 48 := by simp [digitsVal]
        rw [h1', toNat_ofNat_digit hmod, hmm]
    · have hqpos : 0 < (m + 1) / 10 := Nat.pos_of_ne_zero hq
      have hqlt : (m + 1) / 10 < m + 1 := Nat.div_lt_self (by omega) (by omega)
      have hqle : (m + 1) / 10 ≤ fuel := by omega
      obtain ⟨hne, hmem, hval⟩ := ih ((m + 1) / 10) hqpos hqle
      rw [decAux]
      refine ⟨by simp, ?_, ?_⟩
      · intro c hc
        rcases List.mem_append.mp hc with h | h
        · exact hmem c h
        · rw [List.mem_singleton] at h
          subst h
          exact ofNat_digit_mem hmod
      · rw [digitsVal_append, hval, toNat_ofNat_digit hmod]
        omega

theorem decChars_spec (n : Nat) :
    decChars n ≠ [] ∧ (∀ c ∈ decChars n, c ∈ decDigits) ∧ digitsVal (decChars n) = n := by
  by_cases h : n = 0
  · subst h
    refine ⟨by decide, ?_, by decide⟩
    intro c hc
    rw [decChars] at hc
    simp at hc
    subst hc
    decide
  · rw [decChars, if_neg h]
    exact decAux_spec n n (Nat.pos_of_ne_zero h) le_rfl

theorem replicate_zeros_val (k : Nat) : digitsVal (List.replicate k '0') = 0 := by
  induction k with
  | zero => rfl
  | succ k ih =>
    rw [List.replicate_succ]
    show List.foldl _ (10 * 0 + ('0'.toNat - 48)) _ = 0
    simpa [digitsVal] using ih

theorem digitsVal_replicate_append (k : Nat) (d : List Char) :
    digitsVal (List.replicate k '0' ++ d) = digitsVal d := by
  have h0 : List.foldl (fun a c => 10 * a + (c.toNat - 48)) 0 (List.replicate k '0') = 0 :=
    replicate_zeros_val k
  simp [digitsVal, List.foldl_append, h0]

theorem padChars_spec (n : Nat) :
    padChars n ≠ [] ∧ (∀ c ∈ padChars n, c ∈ decDigits) ∧ digitsVal (padChars n) = n ∧
      (padChars n).length = max 3 (decChars n).length := by
  obtain ⟨hne, hmem, hval⟩ := decChars_spec n
  refine ⟨?_, ?_, ?_, ?_⟩
  · rw [padChars]
    intro h
    rw [List.append_eq_nil] at h
    exact hne h.2
  · intro c hc
    rw [padChars, List.mem_append] at hc
    rcases hc with h | h
    · rw [List.eq_of_mem_replicate h]; decide
    · exact hmem c h
  · rw [padChars, digitsVal_replicate_append, hval]
  · rw [padChars, List.length_append, List.length_replicate]
    have : (decChars n).length ≠ 0 := fun h => hne (List.eq_nil_of_length_eq_zero h)
    omega

theorem dropWhile_eq_self_of_all {p : Char → Bool} {l : List Char}
    (h : ∀ c ∈ l, p c = false) : l.dropWhile p = l := by
  cases l with
  | nil => rfl
  | cons c t => simp [List.dropWhile_cons, h c (List.mem_cons_self c t)]

theorem stripChars_eq_self {l : List Char} (h : ∀ c ∈ l, c.isWhitespace = false) :
    stripChars l = l := by
  rw [stripChars, dropWhile_eq_self_of_all h,
    dropWhile_eq_self_of_all (fun c hc => h c (List.mem_reverse.mp hc)), List.reverse_reverse]

theorem pyIntNat_padChars (n : Nat) : pyIntNat (padChars n) = some n := by
  obtain ⟨hne, hmem, hval, -⟩ := padChars_spec n
  rw [pyIntNat]
  rw [stripChars_eq_self (fun c hc => mem_decDigits_not_ws (hmem c hc))]
  rw [if_neg (by simpa using hne)]
  rw [if_pos (List.all_eq_true.mpr (fun c hc => mem_decDigits_isDigit (hmem c hc)))]
  rw [hval]

theorem takeWhile_append_stop {p : Char → Bool} {l : List Char} {x : Char} (r : List Char)
    (hl : ∀ c ∈ l, p c = true) (hx : p x = false) :
    List.takeWhile p (l ++ x :: r) = l := by
  induction l with
  | nil => simp [List.takeWhile_cons, hx]
  | cons c t ih =>
    rw [List.cons_append, List.takeWhile_cons,
      hl c (List.mem_cons_self c t)]
    rw [ih (fun d hd => hl d (List.mem_cons_of_mem c hd))]
    simp

theorem stringMk_append (a b : List Char) : String.mk (a ++ b) = String.mk a ++ String.mk b :=
  rfl

theorem qualParse_mdFileName (n : Nat) : qualParse (mdFileName n).data = some n := by
  obtain ⟨hne, hmem, hval, -⟩ := padChars_spec n
  have hdata : (mdFileName n).data = padChars n ++ mdExt := rfl
  obtain ⟨c, cs, hpc⟩ : ∃ c cs, padChars n = c :: cs := by
    cases h : padChars n with
    | nil => exact absurd h hne
    | cons c cs => exact ⟨c, cs, rfl⟩
  rw [hdata, hpc, List.cons_append, qualParse]
  have hcd : c.isDigit = true :=
    mem_decDigits_isDigit (hmem c (hpc ▸ List.mem_cons_self c cs))
  have hsuf : List.isSuffixOf mdExt (c :: (cs ++ mdExt)) = true := by
    rw [List.isSuffixOf_iff_suffix]
    exact ⟨c :: cs, by simp⟩
  rw [hcd, hsuf]
  show pyIntNat (List.takeWhile _ (c :: (cs ++ mdExt))) = some n
  have : c :: (cs ++ mdExt) = (c :: cs) ++ '.' :: ['m', 'd'] := by simp [mdExt]
  rw [this, takeWhile_append_stop _ ?_ (by decide)]
  · rw [← hpc]; exact pyIntNat_padChars n
  · intro d hd
    have : d ∈ decDigits := hmem d (hpc ▸ hd)
    simpa using mem_decDigits_ne_dot this

theorem mdFileName_inj {a b : Nat} (h : mdFileName a = mdFileName b) : a = b := by
  have := congrArg (fun s => qualParse s.data) h
  simpa [qualParse_mdFileName] using this

theorem le_foldl_max (l : List Nat) (a : Nat) : a ≤ l.foldl max a := by
  induction l generalizing a with
  | nil => exact le_rfl
  | cons x l ih =>
    rw [List.foldl_cons]
    exact le_trans (Nat.le_max_left a x) (ih (max a x))

theorem mem_le_foldl_max {l : List Nat} {x : Nat} (h : x ∈ l) (a : Nat) :
    x ≤ l.foldl max a := by
  induction l generalizing a with
  | nil => cases h
  | cons y l ih =>
    rw [List.foldl_cons]
    rcases List.mem_cons.mp h with rfl | h
    · exact le_trans (Nat.le_max_right a x) (le_foldl_max l (max a x))
    · exact ih h (max a y)

theorem get_next_append_own (files : List String) :
    get_next_article_number (files ++ [mdFileName (get_next_article_number files)])
      = get_next_article_number files + 1 := by
  rw [get_next_article_number, List.filterMap_append]
  rw [show List.filterMap (fun f => qualParse f.data) [mdFileName (get_next_article_number files)]
      = [get_next_article_number files] by
    simp [List.filterMap, qualParse_mdFileName]]
  rw [List.foldl_append]
  rw [get_next_article_number]
  rw [List.foldl_cons, List.foldl_nil]
  have : max ((files.filterMap (fun f => qualParse f.data)).foldl max 0)
      ((files.filterMap (fun f => qualParse f.data)).foldl max 0 + 1)
      = (files.filterMap (fun f => qualParse f.data)).foldl max 0 + 1 :=
    Nat.max_eq_right (Nat.le_succ _)
  rw [this]

theorem seqNames_mem :
    ∀ (N : Nat) (files : List String) (x : String), x ∈ seqNames files N →
      ∃ m, x = mdFileName m ∧ get_next_article_number files ≤ m := by
  intro N
  induction N with
  | zero => intro files x h; cases h
  | succ N ih =>
    intro files x h
    rw [seqNames] at h
    rcases List.mem_cons.mp h with rfl | h
    · exact ⟨get_next_article_number files, rfl, le_rfl⟩
    · obtain ⟨m, hx, hm⟩ := ih _ x h
      refine ⟨m, hx, ?_⟩
      rw [get_next_append_own files] at hm
      omega

theorem seqNames_nodup : ∀ (N : Nat) (files : List String), (seqNames files N).Nodup := by
  intro N
  induction N with
  | zero => intro files; exact List.nodup_nil
  | succ N ih =>
    intro files
    rw [seqNames]
    refine List.nodup_cons.mpr ⟨?_, ih _⟩
    intro hmem
    obtain ⟨m, hx, hm⟩ := seqNames_mem N _ _ hmem
    rw [get_next_append_own files] at hm
    have := mdFileName_inj hx
    omega

theorem seqNames_length : ∀ (N : Nat) (files : List String), (seqNames files N).length = N := by
  intro N
  induction N with
  | zero => intro files; rfl
  | succ N ih => intro files; rw [seqNames, List.length_cons, ih]

/-! Helper lemmas: blank-line collapsing in `save_markdown`. -/

theorem collapse_true_head :
    ∀ (ls : List String) (h : String) (t : List String),
      collapseBlanks ls true = h :: t → blankLine h = false := by
  intro ls
  induction ls with
  | nil => intro h t hc; cases hc
  | cons l ls ih =>
    intro h t hc
    by_cases hb : blankLine l = true
    · rw [collapseBlanks, hb] at hc
      exact ih h t (by simpa using hc)
    · rw [collapseBlanks] at hc
      rw [Bool.not_eq_true] at hb
      rw [hb] at hc
      simp at hc
      rw [← hc.1]
      exact hb

theorem noAdjBlank_cons_of_not_blank {x : String} {r : List String}
    (hx : blankLine x = false) (hr : noAdjBlank r = true) : noAdjBlank (x :: r) = true := by
  cases r with
  | nil => rfl
  | cons b t => simp [noAdjBlank, hx]; exact hr

theorem noAdjBlank_cons_of_head_not_blank {x : String} {r : List String}
    (hhead : ∀ h t, r = h :: t → blankLine h = false)
    (hr : noAdjBlank r = true) : noAdjBlank (x :: r) = true := by
  cases r with
  | nil => rfl
  | cons b t =>
    have hb : blankLine b = false := hhead b t rfl
    simp [noAdjBlank, hb]
    exact hr

theorem collapse_noAdj : ∀ (ls : List String) (p : Bool),
    noAdjBlank (collapseBlanks ls p) = true := by
  intro ls
  induction ls with
  | nil => intro p; rfl
  | cons l ls ih =>
    intro p
    by_cases hb : blankLine l = true
    · rw [collapseBlanks, hb]
      cases p with
      | true => exact ih true
      | false =>
        show noAdjBlank ("" :: collapseBlanks ls true) = true
        exact noAdjBlank_cons_of_head_not_blank (collapse_true_head ls) (ih true)
    · rw [Bool.not_eq_true] at hb
      rw [collapseBlanks, hb]
      show noAdjBlank (l :: collapseBlanks ls false) = true
      exact noAdjBlank_cons_of_not_blank hb (ih false)

theorem rtb_initial : ∀ (ls : List String), removeTrailingBlank ls <+: ls := by
  intro ls
  induction ls with
  | nil => exact List.prefix_refl []
  | cons l ls ih =>
    rw [removeTrailingBlank]
    cases h : removeTrailingBlank ls with
    | nil =>
      by_cases hb : blankLine l = true
      · rw [hb]; simp
      · rw [Bool.not_eq_true] at hb
        rw [hb]
        exact ⟨ls, rfl⟩
    | cons r rs =>
      obtain ⟨t, ht⟩ := h ▸ ih
      exact ⟨t, by rw [List.cons_append, ht]⟩

theorem noAdj_append_left : ∀ (l t : List String),
    noAdjBlank (l ++ t) = true → noAdjBlank l = true := by
  intro l
  induction l with
  | nil => intro t _; rfl
  | cons a l ih =>
    intro t h
    cases l with
    | nil => rfl
    | cons b l2 =>
      rw [List.cons_append, List.cons_append] at h
      rw [noAdjBlank] at h ⊢
      rw [Bool.and_eq_true] at h ⊢
      exact ⟨h.1, ih t (by rw [List.cons_append]; exact h.2)⟩

theorem noAdj_prefix {p l : List String} (hp : p <+: l) (h : noAdjBlank l = true) :
    noAdjBlank p = true := by
  obtain ⟨t, rfl⟩ := hp
  exact noAdj_append_left p t h

theorem rtb_last : ∀ (ls : List String),
    (removeTrailingBlank ls).getLast?.all (fun l => !blankLine l) = true := by
  intro ls
  induction ls with
  | nil => rfl
  | cons l ls ih =>
    rw [removeTrailingBlank]
    cases h : removeTrailingBlank ls with
    | nil =>
      by_cases hb : blankLine l = true
      · rw [hb]; rfl
      · rw [Bool.not_eq_true] at hb
        rw [hb]
        simp [hb]
    | cons r rs =>
      rw [h] at ih
      simpa [List.getLast?_cons_cons] using ih

theorem blankLine_empty : blankLine "" = true := by decide

theorem collapse_filter : ∀ (ls : List String) (p : Bool),
    (collapseBlanks ls p).filter (fun l => !blankLine l)
      = ls.filter (fun l => !blankLine l) := by
  intro ls
  induction ls with
  | nil => intro p; rfl
  | cons l ls ih =>
    intro p
    by_cases hb : blankLine l = true
    · cases p with
      | true => simp [collapseBlanks, hb, List.filter_cons, ih true]
      | false => simp [collapseBlanks, hb, List.filter_cons, blankLine_empty, ih true]
    · rw [Bool.not_eq_true] at hb
      simp only [collapseBlanks, hb, Bool.not_false, if_pos]
      rw [List.filter_cons, ih false]
      simp [List.filter_cons, hb]

theorem rtb_filter : ∀ (ls : List String),
    (removeTrailingBlank ls).filter (fun l => !blankLine l)
      = ls.filter (fun l => !blankLine l) := by
  intro ls
  induction ls with
  | nil => rfl
  | cons l ls ih =>
    rw [removeTrailingBlank]
    cases h : removeTrailingBlank ls with
    | nil =>
      rw [h] at ih
      have hnil : ls.filter (fun l => !blankLine l) = [] := by rw [← ih]; rfl
      by_cases hb : blankLine l = true
      · simp [hb, List.filter_cons, hnil]
      · rw [Bool.not_eq_true] at hb
        simp [hb, List.filter_cons, hnil]
    | cons r rs =>
      rw [h] at ih
      show List.filter _ (l :: r :: rs) = _
      rw [List.filter_cons, ih]
      simp [List.filter_cons]

/-! Helper lemmas: manifest operations and the ingestion fold. -/

theorem beq_comm_string (a b : String) : (a == b) = (b == a) := by
  by_cases h : a = b
  · subst h; rfl
  · rw [beq_eq_false_iff_ne.mpr h, beq_eq_false_iff_ne.mpr (Ne.symm h)]

theorem upsert_containsKey (m : List (String × Option String)) (url fn v : String) :
    containsKey (mUpsert m url fn) v = (containsKey m v || v == url) := by
  rw [mUpsert]
  by_cases h : containsKey m url = true
  · rw [if_pos h]
    have hmap : containsKey (m.map (fun p => if p.1 == url then (p.1, some fn) else p)) v
        = containsKey m v := by
      rw [containsKey, containsKey, List.any_map]
      congr 1
      funext p
      by_cases hp : p.1 == url
      · simp [Function.comp, hp]
      · simp [Function.comp, hp]
    rw [hmap]
    by_cases hv : v == url
    · have : v = url := eq_of_beq hv
      subst this
      rw [h, Bool.true_or]
    · rw [Bool.eq_false_iff.mpr hv, Bool.or_false]
  · rw [if_neg h]
    rw [containsKey, containsKey, List.any_append]
    simp only [List.any_cons, List.any_nil, Bool.or_false]
    rw [beq_comm_string url v]

theorem ingest_fold_keys (fetch : String → Option (String × String)) :
    ∀ (urls : List String) (s : FS) (added : List (String × String)) (v : String),
      (∀ u ∈ urls, fetch u ≠ none) →
      containsKey ((urls.foldl (ingestStep fetch) (s, added)).1.manifest) v
        = (containsKey s.manifest v || urls.contains v) := by
  intro urls
  induction urls with
  | nil =>
    intro s added v _
    rw [List.foldl_nil]
    show containsKey s.manifest v = (containsKey s.manifest v || false)
    rw [Bool.or_false]
  | cons u urls ih =>
    intro s added v h
    rw [List.foldl_cons]
    cases hf : fetch u with
    | none => exact absurd hf (h u (List.mem_cons_self u urls))
    | some tc =>
      rw [show ingestStep fetch (s, added) u
          = ({ s with
                files := s.files ++ [(mdFileName (get_next_article_number (s.files.map Prod.fst)),
                  saveContent tc.1 tc.2)],
                manifest := mUpsert s.manifest u
                  (mdFileName (get_next_article_number (s.files.map Prod.fst))) },
             added ++ [(mdFileName (get_next_article_number (s.files.map Prod.fst)), tc.1)])
        from by rw [ingestStep, hf]]
      rw [ih _ _ v (fun x hx => h x (List.mem_cons_of_mem u hx))]
      rw [upsert_containsKey]
      rw [List.contains_cons]
      rw [Bool.or_assoc]

theorem contains_iff_mem_str {l : List String} {a : String} :
    l.contains a = true ↔ a ∈ l := List.elem_iff

/-! Helper lemmas: deletion. -/

theorem mLookup_none_iff (m : List (String × Option String)) (u : String) :
    mLookup m u = none ↔ containsKey m u = false := by
  rw [mLookup, Option.map_eq_none', List.find?_eq_none, containsKey]
  rw [Bool.eq_false_iff]
  constructor
  · intro h hany
    obtain ⟨p, hp, hbeq⟩ := List.any_eq_true.mp hany
    exact h p hp hbeq
  · intro h p hp hbeq
    exact h (List.any_eq_true.mpr ⟨p, hp, hbeq⟩)

theorem mErase_not_contains (m : List (String × Option String)) (u : String) :
    containsKey (mErase m u) u = false := by
  rw [containsKey, mErase]
  rw [Bool.eq_false_iff]
  intro hany
  obtain ⟨p, hp, hbeq⟩ := List.any_eq_true.mp hany
  have := List.of_mem_filter hp
  simp [bne] at this
  exact this (eq_of_beq hbeq)

theorem mErase_mono {m : List (String × Option String)} {v : String}
    (h : containsKey m v = false) (u : String) : containsKey (mErase m u) v = false := by
  rw [containsKey, Bool.eq_false_iff] at h ⊢
  intro hany
  obtain ⟨p, hp, hbeq⟩ := List.any_eq_true.mp hany
  exact h (List.any_eq_true.mpr ⟨p, List.mem_of_mem_filter hp, hbeq⟩)

theorem delete_article_manifest (md5 : String → String) (s : FS) (url : String) :
    (delete_article md5 s url).1.manifest = s.manifest ∨
      (delete_article md5 s url).1.manifest = mErase s.manifest url := by
  rw [delete_article]
  cases mLookup s.manifest url with
  | none => exact Or.inl rfl
  | some recFn => exact Or.inr rfl

theorem delete_article_removes (md5 : String → String) (s : FS) (url : String) :
    containsKey (delete_article md5 s url).1.manifest url = false := by
  rw [delete_article]
  cases h : mLookup s.manifest url with
  | none => exact (mLookup_none_iff s.manifest url).mp h
  | some recFn => exact mErase_not_contains s.manifest url

theorem delete_article_mono {s : FS} {v : String} (md5 : String → String) (url : String)
    (h : containsKey s.manifest v = false) :
    containsKey (delete_article md5 s url).1.manifest v = false := by
  rcases delete_article_manifest md5 s url with heq | heq
  · rw [heq]; exact h
  · rw [heq]; exact mErase_mono h url

theorem delStep_state (md5 : String → String) (acc : FS × List String × Bool) (url : String) :
    (delStep md5 acc url).1 = (delete_article md5 acc.1 url).1 := by
  rw [delStep]
  by_cases h : (delete_article md5 acc.1 url).2 = true
  · rw [if_pos h]
  · rw [if_neg h]

theorem delFold_mono (md5 : String → String) :
    ∀ (urls : List String) (acc : FS × List String × Bool) (url : String),
      containsKey acc.1.manifest url = false →
      containsKey ((urls.foldl (delStep md5) acc).1.manifest) url = false := by
  intro urls
  induction urls with
  | nil => intro acc url h; exact h
  | cons u urls ih =>
    intro acc url h
    rw [List.foldl_cons]
    refine ih _ url ?_
    rw [delStep_state]
    exact delete_article_mono md5 u h

theorem delFold_removes (md5 : String → String) :
    ∀ (urls : List String) (acc : FS × List String × Bool) (url : String),
      url ∈ urls →
      containsKey ((urls.foldl (delStep md5) acc).1.manifest) url = false := by
  intro urls
  induction urls with
  | nil => intro acc url h; cases h
  | cons u urls ih =>
    intro acc url h
    rcases List.mem_cons.mp h with rfl | h
    · rw [List.foldl_cons]
      refine delFold_mono md5 urls _ url ?_
      rw [delStep_state]
      exact delete_article_removes md5 acc.1 url
    · rw [List.foldl_cons]
      exact ih _ url h

/-! Helper lemmas: navigation. -/

theorem navPaths_append (a b : List NavItem) : navPaths (a ++ b) = navPaths a ++ navPaths b := by
  rw [navPaths, navPaths, navPaths, List.filterMap_append]

theorem navPaths_entries (l : List (String × String)) :
    navPaths (l.map (fun ft => NavItem.entry ft.2 ft.1)) = l.map Prod.fst := by
  rw [navPaths, List.filterMap_map]
  rw [show ((fun item => match item with
      | NavItem.entry _ p => some p
      | NavItem.other _ => none) ∘ fun ft => NavItem.entry ft.2 ft.1)
    = fun ft : String × String => some ft.1 from rfl]
  exact List.filterMap_eq_map Prod.fst ▸ rfl

/-! Helper lemmas: legacy manifest shape. -/

theorem legacy_fold_none :
    ∀ (urls : List String) (acc : List (String × Option String)),
      (∀ p ∈ acc, p.2 = (none : Option String)) →
      ∀ p ∈ urls.foldl
          (fun acc u => if containsKey acc u then acc else acc ++ [(u, none)]) acc,
        p.2 = (none : Option String) := by
  intro urls
  induction urls with
  | nil => intro acc h; exact h
  | cons u urls ih =>
    intro acc h
    rw [List.foldl_cons]
    refine ih _ ?_
    by_cases hc : containsKey acc u = true
    · rw [if_pos hc]; exact h
    · rw [if_neg hc]
      intro p hp
      rcases List.mem_append.mp hp with h1 | h1
      · exact h p h1
      · rw [List.mem_singleton] at h1
        rw [h1]

theorem legacy_fold_contains :
    ∀ (urls : List String) (acc : List (String × Option String)) (u : String),
      (containsKey acc u = true ∨ u ∈ urls) →
      containsKey (urls.foldl
          (fun acc u => if containsKey acc u then acc else acc ++ [(u, none)]) acc) u = true := by
  intro urls
  induction urls with
  | nil =>
    intro acc u h
    rcases h with h | h
    · exact h
    · cases h
  | cons w urls ih =>
    intro acc u h
    rw [List.foldl_cons]
    have hstep : ∀ x, containsKey acc x = true →
        containsKey (if containsKey acc w then acc else acc ++ [(w, none)]) x = true := by
      intro x hx
      by_cases hc : containsKey acc w = true
      · rw [if_pos hc]; exact hx
      · rw [if_neg hc]
        rw [containsKey, List.any_append]
        rw [containsKey] at hx
        rw [hx, Bool.true_or]
    have hw : containsKey (if containsKey acc w then acc else acc ++ [(w, none)]) w = true := by
      by_cases hc : containsKey acc w = true
      · rw [if_pos hc]; exact hc
      · rw [if_neg hc]
        rw [containsKey, List.any_append]
        simp
    rcases h with h | h
    · exact ih _ u (Or.inl (hstep u h))
    · rcases List.mem_cons.mp h with rfl | h
      · exact ih _ u (Or.inl hw)
      · exact ih _ u (Or.inr h)

theorem lookup_of_contains_all_none {m : List (String × Option String)} {u : String}
    (hc : containsKey m u = true) (hall : ∀ p ∈ m, p.2 = (none : Option String)) :
    mLookup m u = some none := by
  rw [mLookup]
  obtain ⟨p, hp, hbeq⟩ := List.any_eq_true.mp hc
  have hsome : (m.find? (fun p => p.1 == u)).isSome := by
    rw [List.find?_isSome]
    exact ⟨p, hp, hbeq⟩
  cases hq : m.find? (fun p => p.1 == u) with
  | none => rw [hq] at hsome; cases hsome
  | some q =>
    rw [Option.map_some']
    rw [hall q (List.mem_of_find?_eq_some hq)]

/-! Helper lemmas: title sanitizer. -/

theorem stripChars_subset {c : Char} {l : List Char} (h : c ∈ stripChars l) : c ∈ l := by
  rw [stripChars, List.mem_reverse] at h
  have h1 := (List.dropWhile_sublist (l := (l.dropWhile Char.isWhitespace).reverse)
    Char.isWhitespace).subset h
  rw [List.mem_reverse] at h1
  exact (List.dropWhile_sublist Char.isWhitespace).subset h1

theorem safeTitle_ne_empty (t : String) : safeTitle t ≠ "" := by
  rw [safeTitle]
  by_cases h : (((stripChars (t.data.filter allowedChar)).map
      (fun c => if c = ' ' then '_' else c)).isEmpty) = true
  · rw [if_pos h]; decide
  · rw [if_neg h]
    intro hcon
    have : ((stripChars (t.data.filter allowedChar)).map
        (fun c => if c = ' ' then '_' else c)) = [] := congrArg String.data hcon
    rw [this] at h
    exact h rfl

theorem safeTitle_chars (t : String) :
    ∀ c ∈ (safeTitle t).data, c.isAlphanum = true ∨ c = '.' ∨ c = '_' ∨ c = '-' := by
  intro c hc
  rw [safeTitle] at hc
  by_cases h : (((stripChars (t.data.filter allowedChar)).map
      (fun c => if c = ' ' then '_' else c)).isEmpty) = true
  · rw [if_pos h] at hc
    fin_cases hc <;> simp
  · rw [if_neg h] at hc
    obtain ⟨d, hd, hdc⟩ := List.mem_map.mp hc
    have hd1 : d ∈ t.data.filter allowedChar := stripChars_subset hd
    have hall : allowedChar d = true := List.of_mem_filter hd1
    by_cases hsp : d = ' '
    · subst hsp
      rw [if_pos rfl] at hdc
      subst hdc
      right; right; left; rfl
    · rw [if_neg hsp] at hdc
      subst hdc
      rw [allowedChar] at hall
      simp only [Bool.or_eq_true, decide_eq_true_eq] at hall
      rcases hall with ⟨⟨⟨h1 | h1⟩ | h1⟩ | h1⟩ | h1
      · exact Or.inl h1
      · exact Or.inr (Or.inl h1)
      · exact Or.inr (Or.inr (Or.inl h1))
      · exact Or.inr (Or.inr (Or.inr h1))
      · exact absurd h1 hsp

/-! Claim theorems. -/

/-- C1: run of step 1 of `main` on a fully-ingested article evaluated at a
concrete state.  The Markdown file, the matching image directory and the
manifest record are all removed and the URL is reported deleted — but the
navigation entry whose path is the recorded filename is NOT pruned (and the
protected home entry is kept): the pruning block looks the deleted URL up in
the already-updated manifest, finds nothing, and so never matches any entry.
This contradicts the claim (and the code's own log message) that the entry is
dropped. -/
theorem C1_code_behavior :
    (runDeletePhase md5stub demoState ["https://x"]).1.files = []
    ∧ (runDeletePhase md5stub demoState ["https://x"]).1.imageDirs = []
    ∧ (runDeletePhase md5stub demoState ["https://x"]).1.manifest = []
    ∧ (runDeletePhase md5stub demoState ["https://x"]).2.1 = ["https://x"]
    ∧ (runDeletePhase md5stub demoState ["https://x"]).1.nav
        = [NavItem.other "Home", NavItem.entry "T" "001.md"] := by
  decide

/-- C2 counterexample: a URL whose manifest record names `001.md` while the
file itself is already gone and no image directory matches.  `delete_article`
removes the manifest record but returns False, so the deletion loop neither
marks the run changed nor accumulates the URL — refuting the claim that a
present record always yields "changed" and accumulation. -/
theorem C2_counterexample :
    (deletionPhase md5stub (FS.mk [] [] [("https://x", some "001.md")] []) ["https://x"]).2.2
      = false
    ∧ (deletionPhase md5stub (FS.mk [] [] [("https://x", some "001.md")] []) ["https://x"]).2.1
      = []
    ∧ (deletionPhase md5stub (FS.mk [] [] [("https://x", some "001.md")] []) ["https://x"]).1.manifest
      = [] := by
  decide

/-- C2 (amended): a URL with no manifest record is skipped with no state
change; a URL with a record always has the record removed, but the run is
marked changed and the URL accumulated exactly when the Markdown file or at
least one matching image directory was physically deleted. -/
theorem C2_amended (md5 : String → String) (s : FS) (dels : List String) (ch : Bool)
    (url : String) :
    (mLookup s.manifest url = none → delStep md5 (s, dels, ch) url = (s, dels, ch))
    ∧ (∀ recFn, mLookup s.manifest url = some recFn →
        (delete_article md5 s url).1.manifest = mErase s.manifest url
        ∧ (delete_article md5 s url).2
            = (fileWouldDelete s url recFn
               || !(matchingImageDirs md5 s.imageDirs url).isEmpty)
        ∧ delStep md5 (s, dels, ch) url
            = ((delete_article md5 s url).1,
               if (delete_article md5 s url).2 then dels ++ [url] else dels,
               (ch || (delete_article md5 s url).2))) := by
  constructor
  · intro h
    simp [delStep, delete_article, h]
  · intro recFn h
    refine ⟨?_, ?_, ?_⟩
    · simp [delete_article, h]
    · simp [delete_article, h, fileWouldDelete]
    · cases hr : (delete_article md5 s url).2
      · simp [delStep, hr]
      · simp [delStep, hr]

/-- C2 witness: the amended theorem applied at the counterexample state. -/
theorem C2_amended_witness :
    delStep md5stub (FS.mk [] [] [("https://x", some "001.md")] [], [], false) "https://x"
      = (FS.mk [] [] [] [], [], false) := by
  have h := (C2_amended md5stub (FS.mk [] [] [("https://x", some "001.md")] []) [] false
    "https://x").2 (some "001.md") (by decide)
  exact h.2.2.trans (by decide)

/-- C4 counterexample: a directory containing only `010.txt`.  The spec-worded
scan (any filename whose name before the extension parses as an integer)
yields 11, but `get_next_article_number` only counts `.md` files whose first
character is a digit and returns 1 — refuting the claim as stated. -/
theorem C4_counterexample :
    get_next_article_number ["010.txt"] = 1 ∧ specNextNumber ["010.txt"] = 11 := by
  decide

/-- C4 (amended): `get_next_article_number` returns one greater than every
integer parsed from qualifying filenames (digit-initial `.md` files), hence
gaps below the maximum are never reused; N successive ingestions, each
writing its file before the next number is assigned, produce N distinct
filenames, each numbered at least the current next number. -/
theorem C4_amended (files : List String) (N : Nat) :
    (∀ f ∈ files, ∀ m, qualParse f.data = some m → m < get_next_article_number files)
    ∧ (seqNames files N).length = N
    ∧ (seqNames files N).Nodup
    ∧ (∀ x ∈ seqNames files N, ∃ m, x = mdFileName m ∧ get_next_article_number files ≤ m) := by
  refine ⟨?_, seqNames_length N files, seqNames_nodup N files, seqNames_mem N files⟩
  intro f hf m hm
  rw [get_next_article_number]
  have h1 : m ∈ files.filterMap (fun f => qualParse f.data) :=
    List.mem_filterMap.mpr ⟨f, hf, hm⟩
  have h2 := mem_le_foldl_max h1 0
  omega

/-- C4 witness: with `004.md` present, the parsed number 4 is below the next
assigned number, and two successive ingestions yield distinct fresh names. -/
theorem C4_amended_witness :
    4 < get_next_article_number ["004.md"]
    ∧ (seqNames ["004.md"] 2).Nodup
    ∧ seqNames ["004.md"] 2 = ["005.md", "006.md"] := by
  refine ⟨(C4_amended ["004.md"] 2).1 "004.md" (by decide) 4 (by decide),
    (C4_amended ["004.md"] 2).2.2.1, by decide⟩

/-- C3: the ingestion phase processes exactly the desired URLs not already in
the manifest, in desired order (a sublist of `desired` with the stated
membership characterization); and when every to-process fetch succeeds, a
second run over the same desired list finds an empty to-process set and
performs no writes (state and additions unchanged). -/
theorem C3_idempotence (fetch : String → Option (String × String)) (s : FS)
    (desired : List String)
    (hall : ∀ u ∈ toProcess desired s.manifest, fetch u ≠ none) :
    toProcess desired s.manifest = desired.filter (fun u => !containsKey s.manifest u)
    ∧ (toProcess desired s.manifest).Sublist desired
    ∧ (∀ u, u ∈ toProcess desired s.manifest
        ↔ u ∈ desired ∧ containsKey s.manifest u = false)
    ∧ toProcess desired (ingestionPhase fetch s desired).1.manifest = []
    ∧ ingestionPhase fetch (ingestionPhase fetch s desired).1 desired
        = ((ingestionPhase fetch s desired).1, []) := by
  have hkeys : ∀ v, containsKey (ingestionPhase fetch s desired).1.manifest v
      = (containsKey s.manifest v || (toProcess desired s.manifest).contains v) := by
    intro v
    exact ingest_fold_keys fetch (toProcess desired s.manifest) s [] v hall
  have hempty : toProcess desired (ingestionPhase fetch s desired).1.manifest = [] := by
    rw [toProcess, List.filter_eq_nil_iff]
    intro u hu
    have hc2 : containsKey (ingestionPhase fetch s desired).1.manifest u = true := by
      rw [hkeys u]
      by_cases hc : containsKey s.manifest u = true
      · rw [hc, Bool.true_or]
      · rw [Bool.not_eq_true] at hc
        have hmem : u ∈ toProcess desired s.manifest := by
          rw [toProcess, List.mem_filter]
          exact ⟨hu, by rw [hc]; rfl⟩
        rw [contains_iff_mem_str.mpr hmem, Bool.or_true]
    rw [hc2]
    decide
  refine ⟨rfl, List.filter_sublist desired, ?_, hempty, ?_⟩
  · intro u
    rw [toProcess, List.mem_filter]
    constructor
    · rintro ⟨h1, h2⟩
      rw [Bool.not_eq_true'] at h2
      exact ⟨h1, h2⟩
    · rintro ⟨h1, h2⟩
      exact ⟨h1, by rw [h2]; rfl⟩
  · rw [ingestionPhase, hempty, List.foldl_nil]

/-- C3 witness: the idempotence theorem at a one-URL desired list over the
empty state with an always-succeeding fetch. -/
theorem C3_witness :
    toProcess ["https://a"] (FS.mk [] [] [] []).manifest = ["https://a"]
    ∧ toProcess ["https://a"]
        ((ingestionPhase (fun _ => some ("T", "B")) (FS.mk [] [] [] []) ["https://a"]).1.manifest)
      = [] := by
  have h := C3_idempotence (fun _ => some ("T", "B")) (FS.mk [] [] [] []) ["https://a"]
    (fun u _ hc => Option.noConfusion hc)
  exact ⟨by decide, h.2.2.2.1⟩

/-- C5: manifest load yields the empty manifest for a missing file and for a
malformed file (without propagating the exception); the legacy list-of-URLs
shape yields records with absent filenames, each listed URL looking up to a
filename-less record; and for such a record `delete_article` resolves the
file by content search, removing exactly the first `.md` file whose raw
content contains the URL (the search result indeed is a `.md` directory entry
whose content contains the URL as a substring). -/
theorem C5_manifest_load :
    load_downloaded_urls ManifestFile.missing = []
    ∧ load_downloaded_urls ManifestFile.malformed = []
    ∧ (∀ urls : List String,
        (∀ p ∈ load_downloaded_urls (ManifestFile.legacy urls), p.2 = none)
        ∧ (∀ u ∈ urls, mLookup (load_downloaded_urls (ManifestFile.legacy urls)) u
            = some none))
    ∧ (∀ (md5 : String → String) (s : FS) (url : String),
        mLookup s.manifest url = some none →
        (delete_article md5 s url).1.files =
          (match findByContent s.files url with
           | some f => removeFile s.files f
           | none => s.files))
    ∧ (∀ (files : List (String × String)) (url f : String),
        findByContent files url = some f →
        List.isSuffixOf mdExt f.data = true
        ∧ ∃ c, (f, c) ∈ files ∧ subOccurs c.data url.data = true) := by
  refine ⟨rfl, rfl, ?_, ?_, ?_⟩
  · intro urls
    constructor
    · exact legacy_fold_none urls [] (fun p hp => absurd hp (List.not_mem_nil p))
    · intro u hu
      exact lookup_of_contains_all_none
        (legacy_fold_contains urls [] u (Or.inr hu))
        (legacy_fold_none urls [] (fun p hp => absurd hp (List.not_mem_nil p)))
  · intro md5 s url h
    have hforce : ∀ f, findByContent s.files url = some f →
        s.files.any (fun fc => fc.1 == f) = true := by
      intro f hf
      rw [findByContent] at hf
      obtain ⟨q, hq, hq1⟩ := Option.map_eq_some'.mp hf
      refine List.any_eq_true.mpr ⟨q, List.mem_of_find?_eq_some hq, ?_⟩
      rw [hq1]
      exact beq_self_eq_true f
    rw [delete_article, h]
    show (match resolveFilename s url none with
        | some f => if s.files.any (fun fc => fc.1 == f) then removeFile s.files f else s.files
        | none => s.files) = _
    rw [resolveFilename]
    cases hf : findByContent s.files url with
    | none => rfl
    | some f => simp [hforce f hf]
  · intro files url f hf
    rw [findByContent] at hf
    obtain ⟨q, hq, hq1⟩ := Option.map_eq_some'.mp hf
    have hpred := List.find?_some hq
    rw [Bool.and_eq_true] at hpred
    subst hq1
    refine ⟨hpred.1, q.2, ?_, hpred.2⟩
    show (q.1, q.2) ∈ files
    rw [show (q.1, q.2) = q from rfl]
    exact List.mem_of_find?_eq_some hq

/-- C5 witness: the load/fallback theorem at a concrete legacy manifest and a
concrete filename-less record whose file is found by content. -/
theorem C5_witness :
    mLookup (load_downloaded_urls (ManifestFile.legacy ["https://a", "https://b"])) "https://b"
      = some none
    ∧ (delete_article md5stub
        (FS.mk [("002.md", "see https://a here")] [] [("https://a", none)] []) "https://a").1.files
      = [] := by
  obtain ⟨-, -, h3, h4, -⟩ := C5_manifest_load
  refine ⟨(h3 ["https://a", "https://b"]).2 "https://b" (by decide), ?_⟩
  have h := h4 md5stub (FS.mk [("002.md", "see https://a here")] [] [("https://a", none)] [])
    "https://a" (by decide)
  exact h.trans (by decide)

/-- C6: with three desired URLs absent from the manifest, where the second
fetch raises and the first and third succeed, the batch continues past the
failure: exactly two files are added, the first and third URLs gain manifest
records, and the second does not. -/
theorem C6_partial_failure (fetch : String → Option (String × String)) (s : FS)
    (u1 u2 u3 t1 b1 t3 b3 : String)
    (h1 : fetch u1 = some (t1, b1)) (h2 : fetch u2 = none) (h3 : fetch u3 = some (t3, b3))
    (m1 : containsKey s.manifest u1 = false) (m2 : containsKey s.manifest u2 = false)
    (m3 : containsKey s.manifest u3 = false) (d21 : u2 ≠ u1) (d23 : u2 ≠ u3) :
    (ingestionPhase fetch s [u1, u2, u3]).2.length = 2
    ∧ (ingestionPhase fetch s [u1, u2, u3]).1.files.length = s.files.length + 2
    ∧ containsKey (ingestionPhase fetch s [u1, u2, u3]).1.manifest u1 = true
    ∧ containsKey (ingestionPhase fetch s [u1, u2, u3]).1.manifest u2 = false
    ∧ containsKey (ingestionPhase fetch s [u1, u2, u3]).1.manifest u3 = true := by
  have htoP : toProcess [u1, u2, u3] s.manifest = [u1, u2, u3] := by
    rw [toProcess]
    simp [List.filter_cons, m1, m2, m3]
  rw [ingestionPhase, htoP]
  rw [List.foldl_cons, List.foldl_cons, List.foldl_cons, List.foldl_nil]
  simp only [ingestStep, h1, h2, h3]
  refine ⟨by simp, ?_, ?_, ?_, ?_⟩
  · simp [List.length_append]
  · rw [upsert_containsKey, upsert_containsKey, beq_self_eq_true]
    simp
  · rw [upsert_containsKey, upsert_containsKey, m2, beq_eq_false_iff_ne.mpr d21,
      beq_eq_false_iff_ne.mpr d23]
    rfl
  · rw [upsert_containsKey, beq_self_eq_true]
    simp

/-- C6 witness: the partial-failure theorem at three concrete URLs with a
fetch that fails exactly on the second. -/
theorem C6_witness :
    (ingestionPhase (fun u => if u == "u2" then none else some ("T", "B"))
      (FS.mk [] [] [] []) ["u1", "u2", "u3"]).2.length = 2
    ∧ containsKey (ingestionPhase (fun u => if u == "u2" then none else some ("T", "B"))
        (FS.mk [] [] [] []) ["u1", "u2", "u3"]).1.manifest "u2" = false := by
  have h := C6_partial_failure (fun u => if u == "u2" then none else some ("T", "B"))
    (FS.mk [] [] [] []) "u1" "u2" "u3" "T" "B" "T" "B"
    (by decide) (by decide) (by decide) (by decide) (by decide) (by decide)
    (by decide) (by decide)
  exact ⟨h.1, h.2.2.2.1⟩

/-- C7: the asset-group identifier is the sanitized title followed by `_` and
the first 8 characters of the URL digest; it is a pure function of (title,
url) (calling it twice yields the same value), the `_`+hash suffix depends
only on the URL for any two titles, and the sanitized title is never empty
and contains only alphanumerics, `.`, `_` and `-` (spaces having become
underscores). -/
theorem C7_asset_group_id (md5 : String → String) (t t2 u : String) :
    derive_asset_group_id md5 t u = safeTitle t ++ "_" ++ urlHash md5 u
    ∧ derive_asset_group_id md5 t u = derive_asset_group_id md5 t u
    ∧ (∃ p q, derive_asset_group_id md5 t u = p ++ ("_" ++ urlHash md5 u)
        ∧ derive_asset_group_id md5 t2 u = q ++ ("_" ++ urlHash md5 u))
    ∧ safeTitle t ≠ ""
    ∧ (∀ c ∈ (safeTitle t).data, c.isAlphanum = true ∨ c = '.' ∨ c = '_' ∨ c = '-') := by
  refine ⟨rfl, rfl, ⟨safeTitle t, safeTitle t2, ?_, ?_⟩, safeTitle_ne_empty t,
    safeTitle_chars t⟩
  · rw [derive_asset_group_id, String.append_assoc]
  · rw [derive_asset_group_id, String.append_assoc]

/-- C8 counterexample: an update whose batch carries the same new filename
twice appends two entries with the same path — the `existing_files` set is
not refreshed during the loop — so path-uniqueness is not preserved by every
update, refuting the claim as stated. -/
theorem C8_counterexample :
    navPaths (update_mkdocs_nav [] [("001.md", "a"), ("001.md", "b")])
      = ["001.md", "001.md"]
    ∧ ¬ (navPaths (update_mkdocs_nav [] [("001.md", "a"), ("001.md", "b")])).Nodup := by
  exact ⟨by decide, by decide⟩

/-- C8 (amended): an update keeps every existing item in order (the old nav is
a prefix of the result), appends exactly the pairs whose path is absent from
the pre-update index, and preserves path-uniqueness whenever the batch's
paths are pairwise distinct. -/
theorem C8_amended (nav : List NavItem) (added : List (String × String))
    (hnav : (navPaths nav).Nodup) (hadd : (added.map Prod.fst).Nodup) :
    update_mkdocs_nav nav added
      = nav ++ (added.filter (fun ft => !(navPaths nav).contains ft.1)).map
          (fun ft => NavItem.entry ft.2 ft.1)
    ∧ nav <+: update_mkdocs_nav nav added
    ∧ navPaths (update_mkdocs_nav nav added)
        = navPaths nav
          ++ ((added.filter (fun ft => !(navPaths nav).contains ft.1)).map Prod.fst)
    ∧ (navPaths (update_mkdocs_nav nav added)).Nodup := by
  have heq : navPaths (update_mkdocs_nav nav added)
      = navPaths nav
        ++ ((added.filter (fun ft => !(navPaths nav).contains ft.1)).map Prod.fst) := by
    rw [update_mkdocs_nav, navPaths_append, navPaths_entries]
  refine ⟨rfl, ⟨_, rfl⟩, heq, ?_⟩
  rw [heq, List.nodup_append]
  refine ⟨hnav, ?_, ?_⟩
  · exact List.Nodup.sublist (List.Sublist.map Prod.fst (List.filter_sublist added)) hadd
  · intro x hx1 hx2
    obtain ⟨ft, hft, rfl⟩ := List.mem_map.mp hx2
    have hmemf := List.mem_filter.mp hft
    have hcon : (navPaths nav).contains ft.1 = false := by
      have h := hmemf.2
      rw [Bool.not_eq_true'] at h
      exact h
    rw [← contains_iff_mem_str] at hx1
    rw [hcon] at hx1
    cases hx1

/-- C8 witness: the amended theorem at a one-entry nav and a batch with one
fresh path and one already-present path (the latter is skipped). -/
theorem C8_amended_witness :
    (navPaths (update_mkdocs_nav [NavItem.entry "home" "index.md"]
      [("001.md", "A"), ("index.md", "B")])).Nodup
    ∧ update_mkdocs_nav [NavItem.entry "home" "index.md"] [("001.md", "A"), ("index.md", "B")]
      = [NavItem.entry "home" "index.md", NavItem.entry "A" "001.md"] := by
  refine ⟨(C8_amended [NavItem.entry "home" "index.md"] [("001.md", "A"), ("index.md", "B")]
    (by decide) (by decide)).2.2.2, by decide⟩

/-- C9: the saved content is exactly the `# title` heading, a blank line, and
the cleaned body; the cleaned body has no two adjacent blank lines and no
trailing blank line while preserving every non-blank line verbatim and in
order; and the assigned filename is the sequence number zero-padded to width
3 with the `.md` extension, parsing back to the number. -/
theorem C9_markdown_layout (title mdText : String) (n : Nat) :
    saveContent title mdText
      = "# " ++ title ++ "\n\n" ++ String.intercalate "\n" (cleanLines (pySplitLines mdText))
    ∧ noAdjBlank (cleanLines (pySplitLines mdText)) = true
    ∧ (cleanLines (pySplitLines mdText)).getLast?.all (fun l => !blankLine l) = true
    ∧ (cleanLines (pySplitLines mdText)).filter (fun l => !blankLine l)
        = (pySplitLines mdText).filter (fun l => !blankLine l)
    ∧ mdFileName n = String.mk (padChars n ++ mdExt)
    ∧ (padChars n).length = max 3 (decChars n).length
    ∧ pyIntNat (padChars n) = some n := by
  refine ⟨rfl, ?_, rtb_last _, ?_, rfl, (padChars_spec n).2.2.2, pyIntNat_padChars n⟩
  · exact noAdj_prefix (rtb_initial _) (collapse_noAdj _ false)
  · rw [cleanLines, rtb_filter, collapse_filter]

/-- C10: when a URL appears in the desired-source file both as a plain line
and as a delete-marked line and has a manifest record at the start of the
run, the deletion phase (run first) leaves the manifest without the URL, so
the subsequently computed to-process list contains the URL and it is
re-ingested in the same run. -/
theorem C10_redownload (md5 : String → String) (s : FS) (lines : List String) (url : String)
    (h1 : url ∈ load_articles lines) (h2 : url ∈ load_delete_urls lines)
    (h3 : containsKey s.manifest url = true) :
    containsKey (deletionPhase md5 s (load_delete_urls lines)).1.manifest url = false
    ∧ url ∈ toProcess (load_articles lines)
        (deletionPhase md5 s (load_delete_urls lines)).1.manifest := by
  have habs : containsKey (deletionPhase md5 s (load_delete_urls lines)).1.manifest url
      = false := by
    rw [deletionPhase]
    exact delFold_removes md5 (load_delete_urls lines) (s, [], false) url h2
  refine ⟨habs, ?_⟩
  rw [toProcess, List.mem_filter]
  exact ⟨h1, by rw [habs]; rfl⟩

/-- C10 witness: the re-download theorem at a concrete two-line config file
listing the URL both plainly and delete-marked, with the URL ingested. -/
theorem C10_witness :
    containsKey (deletionPhase md5stub
      (FS.mk [] [] [("https://x", some "001.md")] [])
      (load_delete_urls ["https://x", "#DELETE:https://x"])).1.manifest "https://x" = false
    ∧ "https://x" ∈ toProcess (load_articles ["https://x", "#DELETE:https://x"])
        (deletionPhase md5stub (FS.mk [] [] [("https://x", some "001.md")] [])
          (load_delete_urls ["https://x", "#DELETE:https://x"])).1.manifest :=
  C10_redownload md5stub (FS.mk [] [] [("https://x", some "001.md")] [])
    ["https://x", "#DELETE:https://x"] "https://x" (by decide) (by decide) (by decide)
